import Mathlib

/- Verification development for the HearLearn reading/listening app.

   Shallow embedding of:
   * the persistent library store (`utils/libraryManager.js`),
   * the ingestion coordinator of `screens/LibraryScreen.js`
     (`processBookPages` / `processPage` and the pending-book trigger),
   * the navigation throttle / lock of the player screen
     (`safeGoTo` / `throttledGoTo`),
   * the page-fit scale and offset computation of the player screen,
   * the speech boundary-to-word-index mapping of `startSpeech`.

   JS numbers that are used as counters or indices are modelled as `Nat`;
   timestamps and page deltas as `Int`; the progress ratio
   `processedCount / total_paginas` is kept as the exact pair
   `(processedCount, total_paginas)` instead of a floating-point quotient;
   the page-fit geometry uses `Rat`. -/

/-- One page of extracted data as returned by the remote service and stored
in the per-book page file (`dados` of `obter_dados_pagina`). -/
structure PageRecord where
  texto_completo : String
  idioma : String
  largura : Nat
  altura : Nat
  extraido_por_ocr : Bool
deriving DecidableEq

/-- One library entry (the metadata object created by `saveBook`). -/
structure Book where
  id_arquivo : String
  nome_original : String
  total_paginas : Nat
  localUri : String
  status : String
  lastPosition : Nat
  listeningTime : Nat
  completed : Bool
  bookmarks : List Nat
  annotations : List (Nat × String)
deriving DecidableEq

/-- Association-list lookup: the value stored under a key, if any. -/
def assocGet {κ α : Type} [BEq κ] (l : List (κ × α)) (k : κ) : Option α :=
  (l.find? (fun kv => kv.1 == k)).map (fun kv => kv.2)

/-- Association-list update: replace the binding of `k` if present,
otherwise append a new binding (JS `obj[k] = v`). -/
def assocSet {κ α : Type} [BEq κ] (l : List (κ × α)) (k : κ) (v : α) :
    List (κ × α) :=
  if l.any (fun kv => kv.1 == k) then
    l.map (fun kv => if kv.1 == k then (k, v) else kv)
  else
    l ++ [(k, v)]

/-- Association-list deletion (JS `delete obj[k]`). -/
def assocErase {κ α : Type} [BEq κ] (l : List (κ × α)) (k : κ) :
    List (κ × α) :=
  l.filter (fun kv => !(kv.1 == k))

/-- The contents of the `book-data/` directory: one JSON page array per
book identifier. -/
abbrev PageFiles := List (String × List PageRecord)

/-- `loadBookPages` of libraryManager.js: the page array of a book, or
`none` when its file does not exist. -/
def loadBookPages (files : PageFiles) (bookId : String) :
    Option (List PageRecord) :=
  assocGet files bookId

/-- `FileSystem.writeAsStringAsync` of the page file: (re)creates the file
with the given array. -/
def writeBookFile (files : PageFiles) (bookId : String)
    (pages : List PageRecord) : PageFiles :=
  assocSet files bookId pages

/-- `appendPageData` of libraryManager.js: read the existing array
(`|| []` when absent), append the new record, write back, and return the
resulting length. -/
def appendPageData (files : PageFiles) (bookId : String)
    (newPageData : PageRecord) : PageFiles × Nat :=
  let existingPages := (loadBookPages files bookId).getD []
  let updatedPages := existingPages ++ [newPageData]
  (writeBookFile files bookId updatedPages, updatedPages.length)

/-- Iterate `appendPageData` over a list of page records, collecting the
returned counts in call order. -/
def appendAllPages (files : PageFiles) (bookId : String) :
    List PageRecord → PageFiles × List Nat
  | [] => (files, [])
  | p :: ps =>
    let r := appendPageData files bookId p
    let rest := appendAllPages r.1 bookId ps
    (rest.1, r.2 :: rest.2)

/-- `updateBookStatus` of libraryManager.js, on the loaded metadata list. -/
def updateBookStatusL (library : List Book) (bookId status : String) :
    List Book :=
  library.map fun book =>
    if book.id_arquivo == bookId then { book with status := status } else book

/-- `updateBookState` of libraryManager.js: advance the last-read position,
accumulate listening time, and latch `completed` once
`pageIndex >= total_paginas - 1`. -/
def updateBookStateL (library : List Book) (bookId : String)
    (pageIndex timeIncrement : Nat) : List Book :=
  library.map fun book =>
    if book.id_arquivo == bookId then
      { book with
        lastPosition := pageIndex
        listeningTime := book.listeningTime + timeIncrement
        completed := book.completed || (book.total_paginas ≤ pageIndex + 1) }
    else book

/-- `addBookmark` of libraryManager.js: insert the page index unless already
present, then re-sort ascending. -/
def addBookmarkL (library : List Book) (bookId : String) (pageIndex : Nat) :
    List Book :=
  library.map fun book =>
    if book.id_arquivo == bookId then
      if book.bookmarks.contains pageIndex then book
      else { book with
             bookmarks := (book.bookmarks ++ [pageIndex]).mergeSort (· ≤ ·) }
    else book

/-- `removeBookmark` of libraryManager.js. -/
def removeBookmarkL (library : List Book) (bookId : String)
    (pageIndex : Nat) : List Book :=
  library.map fun book =>
    if book.id_arquivo == bookId then
      { book with bookmarks := book.bookmarks.filter (fun p => !(p == pageIndex)) }
    else book

/-- `saveAnnotation` of libraryManager.js: set `annotations[pageIndex]`. -/
def saveAnnotationL (library : List Book) (bookId : String)
    (pageIndex : Nat) (text : String) : List Book :=
  library.map fun book =>
    if book.id_arquivo == bookId then
      { book with annotations := assocSet book.annotations pageIndex text }
    else book

/-- `removeAnnotationL` models `removeAnnotation` of libraryManager.js:
delete `annotations[pageIndex]`. -/
def removeAnnotationL (library : List Book) (bookId : String)
    (pageIndex : Nat) : List Book :=
  library.map fun book =>
    if book.id_arquivo == bookId then
      { book with annotations := assocErase book.annotations pageIndex }
    else book

/-- JS `String.prototype.trim`, modelled on the character list (the
built-in `String.trim` is not used because its byte-position recursion
does not evaluate inside the kernel). -/
def jsTrim (s : String) : String :=
  ⟨((s.data.dropWhile Char.isWhitespace).reverse.dropWhile
      Char.isWhitespace).reverse⟩

/-- `handleSaveAnnotationFn` models `handleSaveAnnotation` of the player
screen: a non-blank note is saved, a blank one removes the entry. -/
def handleSaveAnnotationFn (library : List Book) (bookId : String)
    (pageIndex : Nat) (text : String) : List Book :=
  if jsTrim text ≠ "" then saveAnnotationL library bookId pageIndex text
  else removeAnnotationL library bookId pageIndex

/-- The annotation text stored for a page of a book, if any. -/
def annLookup (library : List Book) (bookId : String) (pageIndex : Nat) :
    Option String :=
  (library.find? (fun b => b.id_arquivo == bookId)).bind
    (fun b => assocGet b.annotations pageIndex)

/-- The status of a book in a metadata list, if the book exists. -/
def statusOfL (library : List Book) (bookId : String) : Option String :=
  (library.find? (fun b => b.id_arquivo == bookId)).map Book.status

/-- `library.some(b => b.id_arquivo === bookId)`. -/
def inLibrary (library : List Book) (bookId : String) : Bool :=
  library.any (fun b => b.id_arquivo == bookId)

/-- Process-wide mutable state of LibraryScreen.js together with the
persisted store: metadata list (AsyncStorage), page files (FileSystem),
the `processingControl` in-flight markers, and the `progress` map.
The JS progress value `processedCount / total_paginas` is kept as the
exact pair `(processedCount, total_paginas)`. -/
structure AppState where
  library : List Book
  files : PageFiles
  control : List String
  progress : List (String × (Nat × Nat))
deriving DecidableEq

/-- `delete processingControl[bookId]`. -/
def removeId (control : List String) (bookId : String) : List String :=
  control.filter (fun x => !(x == bookId))

/-- `updateBookStatus` acting on the whole app state. -/
def updateBookStatusS (s : AppState) (bookId status : String) : AppState :=
  { s with library := updateBookStatusL s.library bookId status }

/-- `pages?.length || 0` for a book's page file. -/
def bookPageCount (files : PageFiles) (bookId : String) : Nat :=
  ((loadBookPages files bookId).getD []).length

/-- `loadBooksFromStorage` of LibraryScreen.js: rebuild the progress map
from the on-disk page counts and flip a `processing` book whose page file
is already complete to `ready` (self-healing reconciliation).
The in-memory snapshot and the persisted list are identified here. -/
def loadBooksFromStorageS (s : AppState) : AppState :=
  { s with
    progress := s.library.filterMap fun b =>
      if (b.status == "processing" || b.status == "ready")
          && decide (0 < b.total_paginas) then
        some (b.id_arquivo, (bookPageCount s.files b.id_arquivo, b.total_paginas))
      else none
    library := s.library.map fun b =>
      if b.status == "processing"
          && (bookPageCount s.files b.id_arquivo == b.total_paginas) then
        { b with status := "ready" }
      else b }

/-- Outcome of one `processPage` cycle's interaction with the outside
world: the page fetch rejects or returns a non-`sucesso` payload
(`fetchErr`), the fetch succeeds but the write inside `appendPageData`
throws and is caught there (`fetchOkWriteFail`), or fetch and append both
succeed (`fetchOk`). -/
inductive PageOutcome where
  | fetchErr
  | fetchOkWriteFail (dados : PageRecord)
  | fetchOk (dados : PageRecord)
deriving DecidableEq

/-- The recursive `processPage` loop of `processBookPages`
(LibraryScreen.js), instrumented with the list of page numbers for which
a fetch was issued. `fuel` bounds the number of fetch cycles (the JS loop
needs none: `pageNumber` reaches `total_paginas + 1`); every theorem that
runs the loop to completion supplies enough fuel.

* `pageNumber > total_paginas`: mark `ready`, clear the marker, reload.
* book no longer in the freshly loaded library: clear the marker, stop.
* fetch failure (rejection / non-`sucesso`): mark `failed`, clear the
  marker, reload.
* fetch success: append (a write failure is caught inside
  `appendPageData`, which then returns `0` and leaves the file
  unchanged), store `processedCount / total_paginas`, continue with the
  next page. The first-page foreign-language `Alert` has no state
  effect and is not modelled. -/
def processPage (env : Nat → PageOutcome) (bookInfo : Book) :
    Nat → Nat → AppState → AppState × List Nat
  | fuel, pageNumber, s =>
    if bookInfo.total_paginas < pageNumber then
      let s1 := updateBookStatusS s bookInfo.id_arquivo "ready"
      let s2 := { s1 with control := removeId s1.control bookInfo.id_arquivo }
      (loadBooksFromStorageS s2, [])
    else if !inLibrary s.library bookInfo.id_arquivo then
      ({ s with control := removeId s.control bookInfo.id_arquivo }, [])
    else
      match fuel with
      | 0 => (s, [])
      | fuel' + 1 =>
        match env pageNumber with
        | .fetchErr =>
          let s1 := updateBookStatusS s bookInfo.id_arquivo "failed"
          let s2 :=
            { s1 with control := removeId s1.control bookInfo.id_arquivo }
          (loadBooksFromStorageS s2, [pageNumber])
        | .fetchOkWriteFail _ =>
          let pr := assocSet s.progress bookInfo.id_arquivo (0, bookInfo.total_paginas)
          let s1 := { s with progress := pr }
          let r := processPage env bookInfo fuel' (pageNumber + 1) s1
          (r.1, pageNumber :: r.2)
        | .fetchOk dados =>
          let ap := appendPageData s.files bookInfo.id_arquivo dados
          let pr := assocSet s.progress bookInfo.id_arquivo (ap.2, bookInfo.total_paginas)
          let s1 := { s with files := ap.1, progress := pr }
          let r := processPage env bookInfo fuel' (pageNumber + 1) s1
          (r.1, pageNumber :: r.2)

/-- The continuation of one `processPage` cycle after its `axios` fetch
resolves: the body of the `try`/`catch` from the response match onwards.
Used to analyse a removal that happens while the fetch is in flight. -/
def resumeMidFetch (env : Nat → PageOutcome) (bookInfo : Book)
    (fuel pageNumber : Nat) (s : AppState) : AppState × List Nat :=
  match env pageNumber with
  | .fetchErr =>
    let s1 := updateBookStatusS s bookInfo.id_arquivo "failed"
    let s2 := { s1 with control := removeId s1.control bookInfo.id_arquivo }
    (loadBooksFromStorageS s2, [])
  | .fetchOkWriteFail _ =>
    let pr := assocSet s.progress bookInfo.id_arquivo (0, bookInfo.total_paginas)
    processPage env bookInfo fuel (pageNumber + 1) { s with progress := pr }
  | .fetchOk dados =>
    let ap := appendPageData s.files bookInfo.id_arquivo dados
    let pr := assocSet s.progress bookInfo.id_arquivo (ap.2, bookInfo.total_paginas)
    processPage env bookInfo fuel (pageNumber + 1) { s with files := ap.1, progress := pr }

/-- `processBookPages` of LibraryScreen.js: the single-flight guard, the
marker set, and the resume point `(existingPages?.length || 0) + 1`. -/
def processBookPages (env : Nat → PageOutcome) (bookInfo : Book)
    (fuel : Nat) (s : AppState) : AppState × List Nat :=
  if s.control.contains bookInfo.id_arquivo then (s, [])
  else
    let s1 := { s with control := s.control ++ [bookInfo.id_arquivo] }
    let startPage :=
      ((loadBookPages s1.files bookInfo.id_arquivo).getD []).length + 1
    processPage env bookInfo fuel startPage s1

/-- The pending-book `useEffect` of LibraryScreen.js: start ingestion for
the first `processing` book that has no in-flight marker. -/
def pendingBookTrigger (env : Nat → PageOutcome) (fuel : Nat)
    (s : AppState) : AppState × List Nat :=
  match s.library.find? (fun b => b.status == "processing") with
  | none => (s, [])
  | some pendingBook =>
    if s.control.contains pendingBook.id_arquivo then (s, [])
    else processBookPages env pendingBook fuel s

/-- `removeBook` of libraryManager.js: drop the metadata entry and delete
the page file (the cached PDF has no modelled state). -/
def removeBookS (s : AppState) (bookId : String) : AppState :=
  { s with
    library := s.library.filter (fun b => !(b.id_arquivo == bookId))
    files := assocErase s.files bookId }

/-- The confirmed branch of `handleRemoveBook` of LibraryScreen.js:
delete the in-flight marker, remove the book and its files, drop its
progress entry, then reload. -/
def handleRemoveBookS (s : AppState) (bookId : String) : AppState :=
  let s1 := { s with control := removeId s.control bookId }
  let s2 := removeBookS s1 bookId
  let s3 := { s2 with progress := assocErase s2.progress bookId }
  loadBooksFromStorageS s3

/-- A page-change request: `deltaOrIndex` with the `absolute` flag and the
`continueSpeech` option, as passed to `throttledGoTo` / `safeGoTo`. -/
structure NavReq where
  deltaOrIndex : Int
  absolute : Bool
  continueSpeech : Bool
deriving DecidableEq

/-- The navigation-relevant state of the player screen: the `navLockRef`
lock with its pending 900 ms release, `lastPageChangeAtRef`, the single
pending deferred navigation timeout, page-loading flag, playback flags,
and the current page index. `commits` is a ghost log of committed page
changes `(time, new page index)` appended by `safeGoTo`. -/
structure NavState where
  navLock : Bool
  lastPageChangeAt : Int
  pendingNav : Option (Int × NavReq)
  unlockAt : Option Int
  isPageLoading : Bool
  isPlaying : Bool
  currentWordIndex : Int
  currentPageIndex : Int
  commits : List (Int × Int)
deriving DecidableEq

def MIN_PAGE_CHANGE_INTERVAL : Int := 900

/-- `safeGoTo` of the player screen at wall-clock time `now`: return
unchanged when the lock is held; otherwise commit the page change, stop
speech side effects, and schedule the lock release after the minimum
interval. -/
def safeGoTo (now : Int) (r : NavReq) (s : NavState) : NavState :=
  if s.navLock then s
  else
    let newIndex :=
      if r.absolute then r.deltaOrIndex else s.currentPageIndex + r.deltaOrIndex
    { s with
      navLock := true
      isPageLoading := true
      isPlaying := if r.continueSpeech then s.isPlaying else false
      currentWordIndex := -1
      currentPageIndex := newIndex
      unlockAt := some (now + MIN_PAGE_CHANGE_INTERVAL)
      commits := s.commits ++ [(now, newIndex)] }

/-- The `schedule(delayMs)` helper inside `throttledGoTo`: clear any
pending navigation timeout and arm a new one
(`setTimeout` after `Math.max(0, delayMs)`). -/
def scheduleNav (now delayMs : Int) (r : NavReq) (s : NavState) : NavState :=
  { s with pendingNav := some (now + max 0 delayMs, r) }

/-- `throttledGoTo` of the player screen at time `now`. -/
def throttledGoTo (now : Int) (r : NavReq) (s : NavState) : NavState :=
  let elapsed := now - s.lastPageChangeAt
  if s.isPageLoading || s.navLock then
    scheduleNav now 150 r s
  else if MIN_PAGE_CHANGE_INTERVAL ≤ elapsed then
    safeGoTo now r { s with lastPageChangeAt := now }
  else
    scheduleNav now (MIN_PAGE_CHANGE_INTERVAL - elapsed) r s

/-- The pending navigation timeout firing: clear the slot, stamp
`lastPageChangeAtRef`, then call `safeGoTo` with the deferred request. -/
def firePendingNav (s : NavState) : NavState :=
  match s.pendingNav with
  | none => s
  | some tr => safeGoTo tr.1 tr.2 { s with pendingNav := none, lastPageChangeAt := tr.1 }

/-- The lock-release timeout scheduled by `safeGoTo` firing. -/
def fireUnlock (s : NavState) : NavState :=
  { s with navLock := false, unlockAt := none }

/-- Minimum of two optional times. -/
def minOpt : Option Int → Option Int → Option Int
  | none, b => b
  | a, none => a
  | some x, some y => some (min x y)

/-- The time of the next thing to happen: lock release, pending deferred
navigation, or the next user request. -/
def nextNavTime (events : List (Int × NavReq)) (s : NavState) : Option Int :=
  minOpt s.unlockAt (minOpt (s.pendingNav.map Prod.fst) (events.head?.map Prod.fst))

/-- Deterministic timed run of the navigation machine: process the agenda
of user page-change requests (sorted by time) together with the two
timers, earliest first; at equal times a timer fires before a user event
and the (earlier-armed) unlock timer before the pending navigation.
`fuel` bounds the number of processed actions. -/
def runNav : Nat → List (Int × NavReq) → NavState → NavState
  | 0, _, s => s
  | fuel + 1, events, s =>
    match nextNavTime events s with
    | none => s
    | some t =>
      if s.unlockAt = some t then runNav fuel events (fireUnlock s)
      else if s.pendingNav.map Prod.fst = some t then
        runNav fuel events (firePendingNav s)
      else
        match events with
        | [] => s
        | e :: rest => runNav fuel rest (throttledGoTo e.1 e.2 s)

/-- Committed page changes are separated by at least the minimum
inter-change interval. -/
def SepCommits (l : List (Int × Int)) : Prop :=
  List.Chain' (fun a b => a.1 + MIN_PAGE_CHANGE_INTERVAL ≤ b.1) l

/-- Run invariant of the navigation machine, relative to a lower bound `T`
on the times of everything still to happen. -/
structure NavInv (T : Int) (s : NavState) : Prop where
  sep : SepCommits s.commits
  lock_unlock : s.navLock = true →
    ∃ c, s.commits.getLast? = some c ∧ s.unlockAt = some (c.1 + MIN_PAGE_CHANGE_INTERVAL)
  unlock_none : s.navLock = false → s.unlockAt = none
  free : s.navLock = false →
    s.commits = [] ∨ ∃ c, s.commits.getLast? = some c ∧ c.1 + MIN_PAGE_CHANGE_INTERVAL ≤ T
  pend_ge : ∀ p, s.pendingNav = some p → T ≤ p.1
  unlock_ge : ∀ u, s.unlockAt = some u → T ≤ u

/-- The agenda is sorted and still all in the future relative to `T`. -/
def EventsOk (T : Int) (events : List (Int × NavReq)) : Prop :=
  events.Pairwise (fun a b => a.1 ≤ b.1) ∧ ∀ e ∈ events, T ≤ e.1

/-- The scale/offset effect of the player screen
(`pdfLayout`/`containerLayout` → `pdfScale`, `pdfOffsets`): uniform
page-fit scale and centring offsets, on exact rationals. The result is
`(scale, topOffset, leftOffset)`. -/
def computePageFit (containerW containerH pageW pageH : Rat) :
    Rat × Rat × Rat :=
  let scaleToFitWidth := containerW / pageW
  let scaleToFitHeight := containerH / pageH
  let scale := min scaleToFitWidth scaleToFitHeight
  let scaledPdfWidth := pageW * scale
  let scaledPdfHeight := pageH * scale
  (scale, (containerH - scaledPdfHeight) / 2, (containerW - scaledPdfWidth) / 2)

/-- The whitespace class of the JS regex `\s` restricted to the four
common ASCII whitespace characters. -/
def jsWhitespace (c : Char) : Bool :=
  c = ' ' || c = '\t' || c = '\n' || c = '\r'

/-- State machine behind `text.split(/\s+/)`: `inWs` records whether the
previous character belonged to a whitespace run, `cur` accumulates the
current token in reverse. Splitting on maximal whitespace runs keeps a
leading and a trailing empty token, exactly as the JS `split`. -/
def splitWsAux : Bool → List Char → List Char → List (List Char)
  | _, [], cur => [cur.reverse]
  | inWs, c :: rest, cur =>
    if jsWhitespace c then
      if inWs then splitWsAux true rest cur
      else cur.reverse :: splitWsAux true rest []
    else splitWsAux false rest (c :: cur)

/-- `text.split(/\s+/)` on a character list. -/
def splitWs (l : List Char) : List (List Char) :=
  splitWsAux false l []

/-- `words.slice(k).join(' ')`: the token list joined with single spaces. -/
def joinSp : List (List Char) → List Char
  | [] => []
  | [t] => t
  | t :: rest => t ++ ' ' :: joinSp rest

/-- `(spokenText.match(/\s+/g) || []).length`: the number of maximal
whitespace runs, via the same `inWs` state machine. -/
def countRunsAux : Bool → List Char → Nat
  | _, [] => 0
  | inWs, c :: rest =>
    if jsWhitespace c then
      if inWs then countRunsAux true rest else 1 + countRunsAux true rest
    else countRunsAux false rest

/-- Number of maximal whitespace runs of a string. -/
def countRuns (l : List Char) : Nat :=
  countRunsAux false l

/-- The `onBoundary` handler of `startSpeech`: from the full page text,
the starting word index of the current segment and the reported character
offset, derive the global word index
`speechStartIndex + (spokenText.match(/\s+/g) || []).length`. -/
def boundaryWordIndex (text : List Char) (startIndex charIndex : Nat) : Nat :=
  let words := splitWs text
  let textSegment := joinSp (words.drop startIndex)
  startIndex + countRuns (textSegment.take charIndex)

/-- End positions of the tokens inside their single-space join: token `i`
occupies `[endPos i - len i, endPos i)` and its separator (when one
follows) sits exactly at `endPos i`. -/
def tokenEnds (base : Nat) : List (List Char) → List Nat
  | [] => []
  | t :: rest => (base + t.length) :: tokenEnds (base + t.length + 1) rest

/-- Modelled from the spec: "the number of whitespace-delimited tokens
fully consumed before that offset in the segment" — tokens all of whose
characters lie before the offset, i.e. whose end is at most the offset. -/
def tokensFullyConsumed (toks : List (List Char)) (charIndex : Nat) : Nat :=
  ((tokenEnds 0 toks).filter (fun e => decide (e ≤ charIndex))).length

/-- Tokens ending strictly before the offset — equivalently, tokens whose
trailing separator has also been consumed. This is the count the code
computes. -/
def tokensEndedBefore (toks : List (List Char)) (charIndex : Nat) : Nat :=
  ((tokenEnds 0 toks).filter (fun e => decide (e < charIndex))).length

/-- Sample page payload used by concrete runs. -/
def pageA : PageRecord := ⟨"ola mundo", "pt-BR", 100, 140, false⟩

/-- Second sample page payload. -/
def pageB : PageRecord := ⟨"segunda pagina", "pt-BR", 100, 140, false⟩

/-- A freshly saved one-page book. -/
def bookOne : Book :=
  ⟨"b1", "Book One", 1, "file:///b1", "processing", 0, 0, false, [], []⟩

/-- A two-page book with one page already ingested in `stTwo`. -/
def bookTwo : Book :=
  ⟨"b2", "Book Two", 2, "file:///b2", "processing", 0, 0, false, [], []⟩

/-- A three-page book used in the removal scenarios. -/
def bookThree : Book :=
  ⟨"b3", "Book Three", 3, "file:///b3", "processing", 0, 0, false, [], []⟩

/-- A ready book with a bookmark and an annotation. -/
def bookAnn : Book :=
  ⟨"b9", "Annotated", 5, "file:///b9", "ready", 0, 0, false, [1], [(2, "hi")]⟩

/-- App state right after `saveBook` of `bookOne`. -/
def stOne : AppState := ⟨[bookOne], [("b1", [])], [], []⟩

/-- App state with `bookTwo` having one page on disk and no marker. -/
def stTwo : AppState := ⟨[bookTwo], [("b2", [pageA])], [], []⟩

/-- App state with `bookOne`'s ingestion marker already set. -/
def stGuard : AppState := ⟨[bookOne], [("b1", [])], ["b1"], []⟩

/-- App state of `bookThree` mid-ingestion (marker set, empty page file):
the state at which its first fetch is in flight. -/
def stMid : AppState := ⟨[bookThree], [("b3", [])], ["b3"], []⟩

/-- Environment in which every page fetch succeeds with `pageA`. -/
def envAllOk : Nat → PageOutcome := fun _ => .fetchOk pageA

/-- Environment in which every fetch succeeds but every write inside
`appendPageData` fails (and is caught there). -/
def envWriteFail : Nat → PageOutcome := fun _ => .fetchOkWriteFail pageA

/-- Environment in which every page fetch fails. -/
def envErr : Nat → PageOutcome := fun _ => .fetchErr

/-- A relative next-page navigation request. -/
def navNext : NavReq := ⟨1, false, false⟩

/-- Idle player navigation state: lock free, nothing pending, page 0. -/
def navInit : NavState := ⟨false, 0, none, none, false, false, -1, 0, []⟩

/-- Two taps 100 ms apart, the first long after the last page change. -/
def navEvents : List (Int × NavReq) := [(1000, navNext), (1100, navNext)]

/-- A locked player state with a deferred request pending, as left by a
commit at time 0 followed by a tap at 350. -/
def navLocked : NavState :=
  ⟨true, 0, some (500, navNext), some 900, true, false, -1, 1, [(0, 1)]⟩

theorem any_key_of_find? {κ α : Type} [BEq κ] {l : List (κ × α)} {k : κ}
    {kv : κ × α} (h : l.find? (fun kv => kv.1 == k) = some kv) :
    l.any (fun kv => kv.1 == k) = true := by
  induction l with
  | nil => simp at h
  | cons hd tl ih =>
    by_cases hk : (hd.1 == k) = true
    · simp [List.any_cons, hk]
    · simp only [List.find?_cons, hk] at h
      simp only [Bool.not_eq_true] at hk
      simp [List.any_cons, hk, ih h]

theorem find_map_set {κ α : Type} [BEq κ] [LawfulBEq κ]
    (l : List (κ × α)) (k : κ) (v : α)
    (h : l.any (fun kv => kv.1 == k) = true) :
    (l.map (fun kv => if kv.1 == k then (k, v) else kv)).find?
      (fun kv => kv.1 == k) = some (k, v) := by
  induction l with
  | nil => simp at h
  | cons hd tl ih =>
    by_cases hk : (hd.1 == k) = true
    · simp [List.find?_cons, hk]
    · simp only [List.any_cons, hk, Bool.false_or] at h
      simp [List.find?_cons, hk, ih h]

theorem find_none_of_no_key {κ α : Type} [BEq κ]
    (l : List (κ × α)) (k : κ)
    (h : l.any (fun kv => kv.1 == k) = false) :
    l.find? (fun kv => kv.1 == k) = none := by
  induction l with
  | nil => rfl
  | cons hd tl ih =>
    simp only [List.any_cons, Bool.or_eq_false_iff] at h
    simp [List.find?_cons, h.1, ih h.2]

theorem assocGet_set_self {κ α : Type} [BEq κ] [LawfulBEq κ]
    (l : List (κ × α)) (k : κ) (v : α) :
    assocGet (assocSet l k v) k = some v := by
  unfold assocSet
  by_cases h : l.any (fun kv => kv.1 == k) = true
  · simp only [h, if_true]
    unfold assocGet
    rw [find_map_set l k v h]
    rfl
  · simp only [Bool.not_eq_true] at h
    simp only [h, Bool.false_eq_true, if_false]
    unfold assocGet
    rw [List.find?_append, find_none_of_no_key l k h]
    simp

theorem assocGet_erase_self {κ α : Type} [BEq κ] [LawfulBEq κ]
    (l : List (κ × α)) (k : κ) :
    assocGet (assocErase l k) k = none := by
  unfold assocGet assocErase
  induction l with
  | nil => rfl
  | cons hd tl ih =>
    by_cases hk : (hd.1 == k) = true
    · simp [List.filter_cons, hk, ih]
    · simp only [Bool.not_eq_true] at hk
      simp [List.filter_cons, hk, ih]

theorem mem_assocSet {κ α : Type} [BEq κ] {l : List (κ × α)} {k : κ}
    {v : α} {kv : κ × α} (h : kv ∈ assocSet l k v) :
    kv = (k, v) ∨ kv ∈ l := by
  unfold assocSet at h
  by_cases ha : l.any (fun kv => kv.1 == k) = true
  · rw [if_pos ha] at h
    obtain ⟨a, hal, hae⟩ := List.mem_map.mp h
    by_cases hk : (a.1 == k) = true
    · left; rw [if_pos hk] at hae; exact hae.symm
    · right; rw [if_neg hk] at hae; rwa [← hae]
  · rw [if_neg ha] at h
    rcases List.mem_append.mp h with hl | hr
    · right; exact hl
    · left; simpa using hr

theorem mem_assocErase {κ α : Type} [BEq κ] {l : List (κ × α)} {k : κ}
    {kv : κ × α} (h : kv ∈ assocErase l k) : kv ∈ l :=
  List.mem_of_mem_filter h

theorem loadBookPages_write (files : PageFiles) (bookId : String)
    (pages : List PageRecord) :
    loadBookPages (writeBookFile files bookId pages) bookId = some pages :=
  assocGet_set_self files bookId pages

theorem appendAllPages_spec (bookId : String) :
    ∀ (ps : List PageRecord) (files : PageFiles) (init : List PageRecord),
    loadBookPages files bookId = some init →
    loadBookPages (appendAllPages files bookId ps).1 bookId = some (init ++ ps)
    ∧ (appendAllPages files bookId ps).2 =
        List.range' (init.length + 1) ps.length := by
  intro ps
  induction ps with
  | nil => intro files init h; simpa [appendAllPages] using h
  | cons p ps ih =>
    intro files init h
    have hgd : (loadBookPages files bookId).getD [] = init := by rw [h]; rfl
    have h1 :
        loadBookPages (appendPageData files bookId p).1 bookId
          = some (init ++ [p]) := by
      unfold appendPageData
      rw [hgd]
      exact loadBookPages_write files bookId (init ++ [p])
    have h2 : (appendPageData files bookId p).2 = init.length + 1 := by
      unfold appendPageData
      rw [hgd]
      simp
    obtain ⟨ihl, ihc⟩ := ih (appendPageData files bookId p).1 (init ++ [p]) h1
    constructor
    · show loadBookPages (appendAllPages _ bookId ps).1 bookId = _
      rw [ihl]
      simp
    · show (appendPageData files bookId p).2
          :: (appendAllPages (appendPageData files bookId p).1 bookId ps).2 = _
      rw [h2, ihc]
      simp [List.range'_succ]

/-- C4: `appendPageData` reads the on-disk array, appends the record at the
end, writes back and returns the new length; consequently `N` successful
calls starting from the empty page file leave exactly the `N` records in
call order and return the counts `1, 2, …, N`. -/
theorem appendPageData_monotonic_history (files : PageFiles)
    (bookId : String) (p : PageRecord) (ps : List PageRecord) :
    (loadBookPages (appendPageData files bookId p).1 bookId
        = some (((loadBookPages files bookId).getD []) ++ [p])
      ∧ (appendPageData files bookId p).2
        = ((loadBookPages files bookId).getD []).length + 1)
    ∧ (loadBookPages files bookId = some [] →
        loadBookPages (appendAllPages files bookId ps).1 bookId = some ps
        ∧ (appendAllPages files bookId ps).2 = List.range' 1 ps.length) := by
  constructor
  · constructor
    · unfold appendPageData
      exact loadBookPages_write files bookId _
    · unfold appendPageData
      simp
  · intro h
    have := appendAllPages_spec bookId ps files [] h
    simpa using this

/-- Witness for C4 at a concrete two-append run. -/
theorem appendPageData_monotonic_history_witness :
    loadBookPages [("b1", [])] "b1" = some []
    ∧ (loadBookPages (appendAllPages [("b1", [])] "b1" [pageA, pageB]).1 "b1"
        = some [pageA, pageB]
      ∧ (appendAllPages [("b1", [])] "b1" [pageA, pageB]).2
        = List.range' 1 2) :=
  ⟨by decide,
   (appendPageData_monotonic_history [("b1", [])] "b1" pageA
     [pageA, pageB]).2 (by decide)⟩

theorem map_keyed_frame {f : Book → Book} {bookId : String}
    (hf : ∀ b : Book, b.id_arquivo ≠ bookId → f b = b)
    (library : List Book) (i : Nat) (b : Book)
    (hget : library[i]? = some b) (hne : b.id_arquivo ≠ bookId) :
    (library.map f)[i]? = some b := by
  rw [List.getElem?_map, hget]
  simp [hf b hne]

theorem map_keyed_id {f : Book → Book} {bookId : String}
    (hf : ∀ b : Book, b.id_arquivo ≠ bookId → f b = b)
    (library : List Book) (hall : ∀ b ∈ library, b.id_arquivo ≠ bookId) :
    library.map f = library := by
  induction library with
  | nil => rfl
  | cons hd tl ih =>
    rw [List.map_cons, hf hd (hall hd (by simp)),
      ih (fun b hb => hall b (List.mem_cons_of_mem _ hb))]

theorem find_map_keyed {f : Book → Book}
    (hid : ∀ b, (f b).id_arquivo = b.id_arquivo)
    (library : List Book) (bookId : String) :
    (library.map f).find? (fun b => b.id_arquivo == bookId)
      = (library.find? (fun b => b.id_arquivo == bookId)).map f := by
  induction library with
  | nil => rfl
  | cons hd tl ih =>
    rw [List.map_cons, List.find?_cons, List.find?_cons]
    by_cases h : (hd.id_arquivo == bookId) = true
    · simp [hid hd, h]
    · simp only [Bool.not_eq_true] at h
      simp [hid hd, h, ih]

theorem find_some_of_any {p : Book → Bool} {library : List Book}
    (h : library.any p = true) : ∃ b, library.find? p = some b := by
  induction library with
  | nil => simp at h
  | cons hd tl ih =>
    by_cases hh : p hd = true
    · exact ⟨hd, by simp [List.find?_cons, hh]⟩
    · simp only [Bool.not_eq_true] at hh
      simp only [List.any_cons, hh, Bool.false_or] at h
      obtain ⟨b, hb⟩ := ih h
      exact ⟨b, by simp [List.find?_cons, hh, hb]⟩

/-- C10: every per-document metadata mutator leaves all other documents'
entries in place, and with an identifier absent from the library it
leaves the persisted list unchanged. -/
theorem mutators_frame_effect (library : List Book)
    (bookId status : String) (pageIndex timeIncrement : Nat)
    (text : String) :
    (∀ (i : Nat) (b : Book), library[i]? = some b →
      b.id_arquivo ≠ bookId →
      (updateBookStatusL library bookId status)[i]? = some b
      ∧ (updateBookStateL library bookId pageIndex timeIncrement)[i]? = some b
      ∧ (addBookmarkL library bookId pageIndex)[i]? = some b
      ∧ (removeBookmarkL library bookId pageIndex)[i]? = some b
      ∧ (saveAnnotationL library bookId pageIndex text)[i]? = some b
      ∧ (removeAnnotationL library bookId pageIndex)[i]? = some b)
    ∧ ((∀ b ∈ library, b.id_arquivo ≠ bookId) →
      updateBookStatusL library bookId status = library
      ∧ updateBookStateL library bookId pageIndex timeIncrement = library
      ∧ addBookmarkL library bookId pageIndex = library
      ∧ removeBookmarkL library bookId pageIndex = library
      ∧ saveAnnotationL library bookId pageIndex text = library
      ∧ removeAnnotationL library bookId pageIndex = library) := by
  constructor
  · intro i b hget hne
    refine ⟨?_, ?_, ?_, ?_, ?_, ?_⟩ <;>
      exact map_keyed_frame (fun b hb => by simp [hb]) library i b hget hne
  · intro hall
    refine ⟨?_, ?_, ?_, ?_, ?_, ?_⟩ <;>
      exact map_keyed_id (fun b hb => by simp [hb]) library hall

/-- Witness for C10: mutating an absent identifier leaves the library
untouched. -/
theorem mutators_frame_effect_witness :
    (∀ b ∈ [bookAnn], b.id_arquivo ≠ "zz")
    ∧ (updateBookStatusL [bookAnn] "zz" "ready" = [bookAnn]
      ∧ updateBookStateL [bookAnn] "zz" 0 7 = [bookAnn]
      ∧ addBookmarkL [bookAnn] "zz" 0 = [bookAnn]
      ∧ removeBookmarkL [bookAnn] "zz" 0 = [bookAnn]
      ∧ saveAnnotationL [bookAnn] "zz" 0 "t" = [bookAnn]
      ∧ removeAnnotationL [bookAnn] "zz" 0 = [bookAnn]) :=
  ⟨by decide,
   (mutators_frame_effect [bookAnn] "zz" "ready" 0 7 "t").2 (by decide)⟩

/-- C9: through the player's save handler, a blank annotation deletes the
page's key outright, a non-blank one is stored under the key, and no
empty-string annotation value is ever introduced. -/
theorem annotation_blank_deletes_key (library : List Book)
    (bookId : String) (pageIndex : Nat) (text : String) :
    (jsTrim text = "" →
      annLookup (handleSaveAnnotationFn library bookId pageIndex text)
        bookId pageIndex = none)
    ∧ (jsTrim text ≠ "" → inLibrary library bookId = true →
      annLookup (handleSaveAnnotationFn library bookId pageIndex text)
        bookId pageIndex = some text)
    ∧ ((∀ b ∈ library, ∀ kv ∈ b.annotations, kv.2 ≠ "") →
      ∀ b ∈ handleSaveAnnotationFn library bookId pageIndex text,
        ∀ kv ∈ b.annotations, kv.2 ≠ "") := by
  refine ⟨?_, ?_, ?_⟩
  · intro ht
    unfold handleSaveAnnotationFn
    rw [if_neg (by simp [ht])]
    unfold annLookup removeAnnotationL
    rw [find_map_keyed (fun b => by by_cases h : (b.id_arquivo == bookId) = true <;> simp [h]) library bookId]
    cases hf : library.find? (fun b => b.id_arquivo == bookId) with
    | none => rfl
    | some bk =>
      have hp := List.find?_some hf
      simp only [Option.map_some', Option.bind_some, hp, if_pos hp]
      exact assocGet_erase_self bk.annotations pageIndex
  · intro ht hin
    unfold handleSaveAnnotationFn
    rw [if_pos ht]
    unfold annLookup saveAnnotationL
    rw [find_map_keyed (fun b => by by_cases h : (b.id_arquivo == bookId) = true <;> simp [h]) library bookId]
    obtain ⟨bk, hf⟩ := find_some_of_any hin
    have hp := List.find?_some hf
    rw [hf]
    simp only [Option.map_some', Option.bind_some, hp, if_pos hp]
    exact assocGet_set_self bk.annotations pageIndex text
  · intro hclean b hb kv hkv
    unfold handleSaveAnnotationFn at hb
    by_cases ht : jsTrim text = ""
    · rw [if_neg (by simp [ht])] at hb
      unfold removeAnnotationL at hb
      obtain ⟨a, hal, hae⟩ := List.mem_map.mp hb
      by_cases h : (a.id_arquivo == bookId) = true
      · rw [if_pos h] at hae
        subst hae
        exact hclean a hal kv (mem_assocErase hkv)
      · rw [if_neg h] at hae
        subst hae
        exact hclean a hal kv hkv
    · rw [if_pos ht] at hb
      unfold saveAnnotationL at hb
      obtain ⟨a, hal, hae⟩ := List.mem_map.mp hb
      by_cases h : (a.id_arquivo == bookId) = true
      · rw [if_pos h] at hae
        subst hae
        rcases mem_assocSet hkv with hkv' | hkv'
        · rw [hkv']
          intro hcontra
          apply ht
          have hte : text = "" := hcontra
          rw [hte]
          rfl
        · exact hclean a hal kv hkv'
      · rw [if_neg h] at hae
        subst hae
        exact hclean a hal kv hkv
  
/-- Witness for C9: deleting by saving blank, storing non-blank. -/
theorem annotation_blank_deletes_key_witness :
    (jsTrim "" = ""
      ∧ annLookup (handleSaveAnnotationFn [bookAnn] "b9" 2 "") "b9" 2 = none)
    ∧ (jsTrim "ok" ≠ "" ∧ inLibrary [bookAnn] "b9" = true
      ∧ annLookup (handleSaveAnnotationFn [bookAnn] "b9" 2 "ok") "b9" 2
          = some "ok") :=
  ⟨⟨rfl, (annotation_blank_deletes_key [bookAnn] "b9" 2 "").1 rfl⟩,
   ⟨by decide, by decide,
    (annotation_blank_deletes_key [bookAnn] "b9" 2 "ok").2.1 (by decide)
      (by decide)⟩⟩

/-- C1: if the in-flight marker is already set when `processBookPages` is
invoked, the invocation does nothing — no fetch, no append, no state
change — and the pending-book trigger likewise does nothing when the
pending book's marker is set, however often it fires. -/
theorem single_flight_guard (env : Nat → PageOutcome) (bookInfo : Book)
    (fuel : Nat) (s : AppState)
    (h : s.control.contains bookInfo.id_arquivo = true) :
    processBookPages env bookInfo fuel s = (s, [])
    ∧ (∀ pendingBook,
        s.library.find? (fun b => b.status == "processing") = some pendingBook →
        s.control.contains pendingBook.id_arquivo = true →
        pendingBookTrigger env fuel s = (s, [])) := by
  constructor
  · unfold processBookPages
    rw [if_pos h]
  · intro pb hpb hpbc
    unfold pendingBookTrigger
    rw [hpb]
    show (if s.control.contains pb.id_arquivo = true
        then ((s, []) : AppState × List Nat)
        else processBookPages env pb fuel s) = (s, [])
    rw [if_pos hpbc]

/-- Witness for C1: with the marker set, a second invocation is inert. -/
theorem single_flight_guard_witness :
    stGuard.control.contains bookOne.id_arquivo = true
    ∧ processBookPages envAllOk bookOne 5 stGuard = (stGuard, []) :=
  ⟨by decide,
   (single_flight_guard envAllOk bookOne 5 stGuard (by decide)).1⟩

theorem processPage_trace_range (env : Nat → PageOutcome)
    (bookInfo : Book) :
    ∀ (fuel pageNumber : Nat) (s : AppState),
    ∃ n, (processPage env bookInfo fuel pageNumber s).2 =
      List.range' pageNumber n := by
  intro fuel
  induction fuel with
  | zero =>
    intro P s
    refine ⟨0, ?_⟩
    show (processPage env bookInfo 0 P s).2 = []
    simp only [processPage]
    split
    · rfl
    · split
      · rfl
      · rfl
  | succ fuel ih =>
    intro P s
    simp only [processPage]
    split
    · exact ⟨0, rfl⟩
    · split
      · exact ⟨0, rfl⟩
      · cases henv : env P with
        | fetchErr =>
          refine ⟨1, ?_⟩
          simp [henv, List.range'_one]
        | fetchOkWriteFail dados =>
          obtain ⟨n, hn⟩ := ih (P + 1)
            { s with progress :=
                assocSet s.progress bookInfo.id_arquivo (0, bookInfo.total_paginas) }
          refine ⟨n + 1, ?_⟩
          simp only [henv]
          rw [List.range'_succ]
          simpa using hn
        | fetchOk dados =>
          obtain ⟨n, hn⟩ := ih (P + 1)
            { s with
              files := (appendPageData s.files bookInfo.id_arquivo dados).1
              progress :=
                assocSet s.progress bookInfo.id_arquivo
                  ((appendPageData s.files bookInfo.id_arquivo dados).2,
                    bookInfo.total_paginas) }
          refine ⟨n + 1, ?_⟩
          simp only [henv]
          rw [List.range'_succ]
          simpa using hn

/-- C3: when the guard is clear, ingestion issues its fetches exactly for
the contiguous page range starting at `(on-disk page count) + 1` — each
page at most once, none skipped. -/
theorem resume_point_no_skip_no_refetch (env : Nat → PageOutcome)
    (bookInfo : Book) (fuel : Nat) (s : AppState)
    (h : s.control.contains bookInfo.id_arquivo = false) :
    ∃ n, (processBookPages env bookInfo fuel s).2 =
        List.range'
          (((loadBookPages s.files bookInfo.id_arquivo).getD []).length + 1) n
      ∧ (processBookPages env bookInfo fuel s).2.Nodup := by
  unfold processBookPages
  rw [if_neg (by simp only [h]; exact Bool.false_ne_true)]
  obtain ⟨n, hn⟩ := processPage_trace_range env bookInfo fuel
    (((loadBookPages s.files bookInfo.id_arquivo).getD []).length + 1)
    { s with control := s.control ++ [bookInfo.id_arquivo] }
  refine ⟨n, hn, ?_⟩
  rw [hn]
  exact List.nodup_range' _ _

/-- Witness for C3: one page already on disk, the run fetches from 2. -/
theorem resume_point_no_skip_no_refetch_witness :
    stTwo.control.contains bookTwo.id_arquivo = false
    ∧ ∃ n, (processBookPages envAllOk bookTwo 5 stTwo).2 =
        List.range'
          (((loadBookPages stTwo.files bookTwo.id_arquivo).getD []).length + 1) n
      ∧ (processBookPages envAllOk bookTwo 5 stTwo).2.Nodup :=
  ⟨by decide,
   resume_point_no_skip_no_refetch envAllOk bookTwo 5 stTwo (by decide)⟩

theorem contains_removeId (control : List String) (bookId : String) :
    (removeId control bookId).contains bookId = false := by
  unfold removeId
  rw [Bool.eq_false_iff]
  intro hc
  have hmem : bookId ∈ control.filter (fun x => !(x == bookId)) := by
    simp at hc
  have := (List.mem_filter.mp hmem).2
  simp at this

theorem status_update_self {library : List Book} {bookId : String}
    (status : String) (hin : inLibrary library bookId = true) :
    statusOfL (updateBookStatusL library bookId status) bookId
      = some status := by
  unfold inLibrary at hin
  unfold statusOfL updateBookStatusL
  induction library with
  | nil => simp at hin
  | cons hd tl ih =>
    rw [List.map_cons]
    by_cases h : (hd.id_arquivo == bookId) = true
    · rw [if_pos h, @List.find?_cons_of_pos Book
        (fun b => b.id_arquivo == bookId) ({ hd with status := status }) _ h]
      rfl
    · have hf : ¬ (hd.id_arquivo == bookId) = true := h
      rw [if_neg hf, @List.find?_cons_of_neg Book
        (fun b => b.id_arquivo == bookId) hd _ hf]
      simp only [Bool.not_eq_true] at h
      simp only [List.any_cons, h, Bool.false_or] at hin
      exact ih hin

theorem statusOf_loadBooks_other (s : AppState) (bookId st : String)
    (hst : statusOfL s.library bookId = some st) (hne : st ≠ "processing") :
    statusOfL (loadBooksFromStorageS s).library bookId = some st := by
  obtain ⟨bk, hbk, hbs⟩ := Option.map_eq_some'.mp hst
  have hid : ∀ b : Book,
      ((if b.status == "processing"
            && (bookPageCount s.files b.id_arquivo == b.total_paginas) then
          { b with status := "ready" } else b) : Book).id_arquivo
        = b.id_arquivo := by
    intro b
    by_cases h : (b.status == "processing"
        && (bookPageCount s.files b.id_arquivo == b.total_paginas)) = true
    · rw [if_pos h]
    · rw [if_neg h]
  unfold statusOfL loadBooksFromStorageS
  simp only
  rw [find_map_keyed hid s.library bookId, hbk, Option.map_some',
    Option.map_some']
  have hbp : (bk.status == "processing") = false := by
    rw [hbs]
    exact beq_eq_false_iff_ne.mpr hne
  rw [if_neg (show ¬ (bk.status == "processing"
      && (bookPageCount s.files bk.id_arquivo == bk.total_paginas)) = true by
    rw [hbp, Bool.false_and]
    exact Bool.false_ne_true)]
  rw [hbs]

/-- C2 counterexample: a write failure inside `appendPageData` on the only
page of `bookOne` does not mark the book `failed` — the loop carries on
and the book ends up `ready` with an empty page file. The claim predicts
status `failed` and a cleared marker with the loop stopped. -/
theorem append_failure_not_failed_cex :
    statusOfL (processBookPages envWriteFail bookOne 5 stOne).1.library "b1"
        = some "ready"
    ∧ (processBookPages envWriteFail bookOne 5 stOne).2 = [1]
    ∧ loadBookPages (processBookPages envWriteFail bookOne 5 stOne).1.files
        "b1" = some [] :=
  ⟨by decide, by decide, by decide⟩

/-- C2 amended: a page-fetch failure (rejection, timeout or non-`sucesso`
response) marks the document `failed`, clears the in-flight marker and
stops without fetching a further page; a write failure inside
`appendPageData`, however, is caught there (reported as count 0) and the
loop continues with the next page instead of failing. -/
theorem fetch_failure_terminal (env : Nat → PageOutcome) (bookInfo : Book)
    (fuel pageNumber : Nat) (s : AppState)
    (hP : pageNumber ≤ bookInfo.total_paginas)
    (hin : inLibrary s.library bookInfo.id_arquivo = true) :
    (env pageNumber = .fetchErr →
      processPage env bookInfo (fuel + 1) pageNumber s =
        (loadBooksFromStorageS
          { updateBookStatusS s bookInfo.id_arquivo "failed" with
            control := removeId s.control bookInfo.id_arquivo },
          [pageNumber])
      ∧ statusOfL (processPage env bookInfo (fuel + 1) pageNumber s).1.library
          bookInfo.id_arquivo = some "failed"
      ∧ (processPage env bookInfo (fuel + 1) pageNumber s).1.control.contains
          bookInfo.id_arquivo = false)
    ∧ (∀ dados, env pageNumber = .fetchOkWriteFail dados →
      processPage env bookInfo (fuel + 1) pageNumber s =
        ((processPage env bookInfo fuel (pageNumber + 1)
            { s with progress := assocSet s.progress bookInfo.id_arquivo (0, bookInfo.total_paginas) }).1,
          pageNumber ::
            (processPage env bookInfo fuel (pageNumber + 1)
              { s with progress := assocSet s.progress bookInfo.id_arquivo (0, bookInfo.total_paginas) }).2)) := by
  have hlt : ¬ (bookInfo.total_paginas < pageNumber) := by omega
  have hinn : ¬ ((!inLibrary s.library bookInfo.id_arquivo) = true) := by
    simp [hin]
  constructor
  · intro henv
    have hstep : processPage env bookInfo (fuel + 1) pageNumber s =
        (loadBooksFromStorageS
          { updateBookStatusS s bookInfo.id_arquivo "failed" with
            control := removeId s.control bookInfo.id_arquivo },
          [pageNumber]) := by
      conv_lhs => rw [processPage]
      rw [if_neg hlt, if_neg hinn, henv]
      rfl
    refine ⟨hstep, ?_, ?_⟩
    · rw [hstep]
      exact statusOf_loadBooks_other _ bookInfo.id_arquivo "failed"
        (status_update_self "failed" hin) (by decide)
    · rw [hstep]
      show (removeId s.control bookInfo.id_arquivo).contains
        bookInfo.id_arquivo = false
      exact contains_removeId s.control bookInfo.id_arquivo
  · intro dados henv
    conv_lhs => rw [processPage]
    rw [if_neg hlt, if_neg hinn, henv]

/-- Witness for the amended C2, at a fetch failure on page 1. -/
theorem fetch_failure_terminal_witness :
    (1 ≤ bookOne.total_paginas
      ∧ inLibrary stOne.library bookOne.id_arquivo = true
      ∧ envErr 1 = .fetchErr)
    ∧ (statusOfL (processPage envErr bookOne 5 1 stOne).1.library
          bookOne.id_arquivo = some "failed"
      ∧ (processPage envErr bookOne 5 1 stOne).1.control.contains
          bookOne.id_arquivo = false) :=
  ⟨⟨by decide, by decide, rfl⟩,
   ((fetch_failure_terminal envErr bookOne 4 1 stOne (by decide)
      (by decide)).1 rfl).2⟩

theorem processPage_absent (env : Nat → PageOutcome) (bookInfo : Book)
    (fuel pageNumber : Nat) (s : AppState)
    (h : inLibrary s.library bookInfo.id_arquivo = false) :
    (processPage env bookInfo fuel pageNumber s).1.files = s.files
    ∧ (processPage env bookInfo fuel pageNumber s).1.control.contains
        bookInfo.id_arquivo = false
    ∧ (processPage env bookInfo fuel pageNumber s).2 = [] := by
  by_cases hlt : bookInfo.total_paginas < pageNumber
  · have hstep : processPage env bookInfo fuel pageNumber s =
        (loadBooksFromStorageS
          { updateBookStatusS s bookInfo.id_arquivo "ready" with
            control := removeId s.control bookInfo.id_arquivo }, []) := by
      conv_lhs => rw [processPage.eq_def]
      dsimp only
      rw [if_pos hlt]
      rfl
    rw [hstep]
    exact ⟨rfl, contains_removeId s.control bookInfo.id_arquivo, rfl⟩
  · have hstep : processPage env bookInfo fuel pageNumber s =
        ({ s with control := removeId s.control bookInfo.id_arquivo }, []) := by
      conv_lhs => rw [processPage.eq_def]
      dsimp only
      rw [if_neg hlt, if_pos (by rw [h]; rfl)]
    rw [hstep]
    exact ⟨rfl, contains_removeId s.control bookInfo.id_arquivo, rfl⟩

theorem resumeMidFetch_absent (env : Nat → PageOutcome) (bookInfo : Book)
    (fuel pageNumber : Nat) (s : AppState)
    (h : inLibrary s.library bookInfo.id_arquivo = false) :
    ((resumeMidFetch env bookInfo fuel pageNumber s).1.files = s.files
      ∨ ∃ dados, env pageNumber = .fetchOk dados
          ∧ (resumeMidFetch env bookInfo fuel pageNumber s).1.files
            = (appendPageData s.files bookInfo.id_arquivo dados).1)
    ∧ (resumeMidFetch env bookInfo fuel pageNumber s).1.control.contains
        bookInfo.id_arquivo = false := by
  unfold resumeMidFetch
  cases henv : env pageNumber with
  | fetchErr =>
    exact ⟨Or.inl rfl, contains_removeId s.control bookInfo.id_arquivo⟩
  | fetchOkWriteFail dados =>
    have := processPage_absent env bookInfo fuel (pageNumber + 1)
      { s with progress :=
          assocSet s.progress bookInfo.id_arquivo (0, bookInfo.total_paginas) } h
    exact ⟨Or.inl this.1, this.2.1⟩
  | fetchOk dados =>
    have := processPage_absent env bookInfo fuel (pageNumber + 1)
      { s with
        files := (appendPageData s.files bookInfo.id_arquivo dados).1
        progress :=
          assocSet s.progress bookInfo.id_arquivo
            ((appendPageData s.files bookInfo.id_arquivo dados).2,
              bookInfo.total_paginas) } h
    exact ⟨Or.inr ⟨dados, rfl, this.1⟩, this.2.1⟩

/-- C5 counterexample: remove `bookThree` while its first fetch is in
flight (`stMid`); the resolving fetch cycle still appends the page,
recreating the removed book's page file — page data IS written after
removal, contradicting the claim. (The marker half does hold: the marker
is not set afterwards.) -/
theorem removal_mid_fetch_write_cex :
    (handleRemoveBookS stMid "b3").files = []
    ∧ (resumeMidFetch envAllOk bookThree 5 1
        (handleRemoveBookS stMid "b3")).1.files = [("b3", [pageA])]
    ∧ (resumeMidFetch envAllOk bookThree 5 1
        (handleRemoveBookS stMid "b3")).1.control.contains "b3" = false :=
  ⟨by decide, by decide, by decide⟩

/-- C5 amended: once the document is gone from the library, a loop that is
between fetch cycles writes nothing further, fetches nothing, and leaves
the marker unset; a loop whose fetch was already in flight may still
append that one in-flight page (recreating the file), after which nothing
further is written and the marker is not set. -/
theorem removal_cancels_ingestion (env : Nat → PageOutcome)
    (bookInfo : Book) (fuel pageNumber : Nat) (s : AppState)
    (h : inLibrary s.library bookInfo.id_arquivo = false) :
    ((processPage env bookInfo fuel pageNumber s).1.files = s.files
      ∧ (processPage env bookInfo fuel pageNumber s).1.control.contains
          bookInfo.id_arquivo = false
      ∧ (processPage env bookInfo fuel pageNumber s).2 = [])
    ∧ (((resumeMidFetch env bookInfo fuel pageNumber s).1.files = s.files
        ∨ ∃ dados, env pageNumber = .fetchOk dados
            ∧ (resumeMidFetch env bookInfo fuel pageNumber s).1.files
              = (appendPageData s.files bookInfo.id_arquivo dados).1)
      ∧ (resumeMidFetch env bookInfo fuel pageNumber s).1.control.contains
          bookInfo.id_arquivo = false) :=
  ⟨processPage_absent env bookInfo fuel pageNumber s h,
   resumeMidFetch_absent env bookInfo fuel pageNumber s h⟩

/-- Witness for the amended C5 at the concrete removed state. -/
theorem removal_cancels_ingestion_witness :
    inLibrary (handleRemoveBookS stMid "b3").library bookThree.id_arquivo
      = false
    ∧ (processPage envAllOk bookThree 5 2
          (handleRemoveBookS stMid "b3")).1.files
        = (handleRemoveBookS stMid "b3").files
    ∧ (processPage envAllOk bookThree 5 2
        (handleRemoveBookS stMid "b3")).2 = [] :=
  ⟨by decide,
   (removal_cancels_ingestion envAllOk bookThree 5 2
      (handleRemoveBookS stMid "b3") (by decide)).1.1,
   (removal_cancels_ingestion envAllOk bookThree 5 2
      (handleRemoveBookS stMid "b3") (by decide)).1.2.2⟩

/-- C7: for a positive container and page dimensions above 1, the computed
scale is `min(cW/pW, cH/pH)`, the scaled page fits on both axes with
equality on at least one, and the offsets centre the scaled page. -/
theorem page_fit_scale (cW cH pW pH : Rat)
    (hpW : 1 < pW) (hpH : 1 < pH) (hcW : 0 < cW) (hcH : 0 < cH) :
    (computePageFit cW cH pW pH).1 = min (cW / pW) (cH / pH)
    ∧ (computePageFit cW cH pW pH).1 * pW ≤ cW
    ∧ (computePageFit cW cH pW pH).1 * pH ≤ cH
    ∧ ((computePageFit cW cH pW pH).1 * pW = cW
        ∨ (computePageFit cW cH pW pH).1 * pH = cH)
    ∧ 2 * (computePageFit cW cH pW pH).2.2
        + (computePageFit cW cH pW pH).1 * pW = cW
    ∧ 2 * (computePageFit cW cH pW pH).2.1
        + (computePageFit cW cH pW pH).1 * pH = cH := by
  have hpW0 : (0 : Rat) < pW := by linarith
  have hpH0 : (0 : Rat) < pH := by linarith
  have hfit : computePageFit cW cH pW pH
      = (min (cW / pW) (cH / pH),
          (cH - pH * min (cW / pW) (cH / pH)) / 2,
          (cW - pW * min (cW / pW) (cH / pH)) / 2) := rfl
  rw [hfit]
  have h1 : min (cW / pW) (cH / pH) * pW ≤ cW := by
    calc min (cW / pW) (cH / pH) * pW
        ≤ (cW / pW) * pW :=
          mul_le_mul_of_nonneg_right (min_le_left _ _) (le_of_lt hpW0)
      _ = cW := div_mul_cancel₀ cW (ne_of_gt hpW0)
  have h2 : min (cW / pW) (cH / pH) * pH ≤ cH := by
    calc min (cW / pW) (cH / pH) * pH
        ≤ (cH / pH) * pH :=
          mul_le_mul_of_nonneg_right (min_le_right _ _) (le_of_lt hpH0)
      _ = cH := div_mul_cancel₀ cH (ne_of_gt hpH0)
  refine ⟨rfl, h1, h2, ?_, by ring, by ring⟩
  rcases min_choice (cW / pW) (cH / pH) with h | h
  · left
    rw [h]
    exact div_mul_cancel₀ cW (ne_of_gt hpW0)
  · right
    rw [h]
    exact div_mul_cancel₀ cH (ne_of_gt hpH0)

/-- Witness for C7 at a 300×200 container and a 100×50 page. -/
theorem page_fit_scale_witness :
    ((1 : Rat) < 100 ∧ (1 : Rat) < 50 ∧ (0 : Rat) < 300 ∧ (0 : Rat) < 200)
    ∧ ((computePageFit 300 200 100 50).1 = min (300 / 100) (200 / 50)
      ∧ (computePageFit 300 200 100 50).1 * 100 ≤ 300
      ∧ (computePageFit 300 200 100 50).1 * 50 ≤ 200
      ∧ ((computePageFit 300 200 100 50).1 * 100 = 300
          ∨ (computePageFit 300 200 100 50).1 * 50 = 200)
      ∧ 2 * (computePageFit 300 200 100 50).2.2
          + (computePageFit 300 200 100 50).1 * 100 = 300
      ∧ 2 * (computePageFit 300 200 100 50).2.1
          + (computePageFit 300 200 100 50).1 * 50 = 200) :=
  ⟨⟨by norm_num, by norm_num, by norm_num, by norm_num⟩,
   page_fit_scale 300 200 100 50 (by norm_num) (by norm_num) (by norm_num)
     (by norm_num)⟩

theorem minOpt_le {a b : Option Int} {t : Int} (h : minOpt a b = some t) :
    (∀ x, a = some x → t ≤ x) ∧ (∀ x, b = some x → t ≤ x) := by
  cases a with
  | none =>
    cases b with
    | none => simp [minOpt] at h
    | some y =>
      unfold minOpt at h
      injection h with h'
      subst h'
      exact ⟨fun x hx => by simp at hx,
        fun x hx => by injection hx with h'; omega⟩
  | some x0 =>
    cases b with
    | none =>
      unfold minOpt at h
      injection h with h'
      subst h'
      exact ⟨fun x hx => by injection hx with h'; omega,
        fun x hx => by simp at hx⟩
    | some y0 =>
      unfold minOpt at h
      injection h with h'
      subst h'
      constructor
      · intro x hx
        injection hx with h'
        subst h'
        exact min_le_left _ _
      · intro x hx
        injection hx with h'
        subst h'
        exact min_le_right _ _

theorem minOpt_some_le_left {a b : Option Int} {x : Int}
    (hx : a = some x) : ∃ m, minOpt a b = some m ∧ m ≤ x := by
  subst hx
  cases b with
  | none => exact ⟨x, rfl, le_refl x⟩
  | some y => exact ⟨min x y, rfl, min_le_left x y⟩

theorem minOpt_some_le_right {a b : Option Int} {x : Int}
    (hx : b = some x) : ∃ m, minOpt a b = some m ∧ m ≤ x := by
  subst hx
  cases a with
  | none => exact ⟨x, rfl, le_refl x⟩
  | some y => exact ⟨min y x, rfl, min_le_right y x⟩

theorem minOpt_eq {a b : Option Int} {t : Int} (h : minOpt a b = some t) :
    a = some t ∨ b = some t := by
  cases a with
  | none =>
    cases b with
    | none => exact Option.noConfusion h
    | some y => exact Or.inr h
  | some x0 =>
    cases b with
    | none => exact Or.inl h
    | some y0 =>
      unfold minOpt at h
      injection h with h'
      rcases min_choice x0 y0 with hm | hm
      · exact Or.inl (by rw [← h', hm])
      · exact Or.inr (by rw [← h', hm])

theorem nextNavTime_le (events : List (Int × NavReq)) (s : NavState)
    (t : Int) (h : nextNavTime events s = some t) :
    (∀ u, s.unlockAt = some u → t ≤ u)
    ∧ (∀ p, s.pendingNav = some p → t ≤ p.1)
    ∧ (∀ e, events.head? = some e → t ≤ e.1) := by
  unfold nextNavTime at h
  obtain ⟨h1, h2⟩ := minOpt_le h
  refine ⟨h1, ?_, ?_⟩
  · intro p hp
    have hP : s.pendingNav.map Prod.fst = some p.1 := by rw [hp]; rfl
    obtain ⟨m, hm, hmx⟩ :=
      minOpt_some_le_left (b := events.head?.map Prod.fst) hP
    have := h2 m hm
    omega
  · intro e he
    have hE : events.head?.map Prod.fst = some e.1 := by rw [he]; rfl
    obtain ⟨m, hm, hmx⟩ :=
      minOpt_some_le_right (a := s.pendingNav.map Prod.fst) hE
    have := h2 m hm
    omega

theorem nextNavTime_cases (events : List (Int × NavReq)) (s : NavState)
    (t : Int) (h : nextNavTime events s = some t) :
    s.unlockAt = some t ∨ s.pendingNav.map Prod.fst = some t
    ∨ events.head?.map Prod.fst = some t := by
  unfold nextNavTime at h
  rcases minOpt_eq h with h1 | h2
  · exact Or.inl h1
  · rcases minOpt_eq h2 with h3 | h4
    · exact Or.inr (Or.inl h3)
    · exact Or.inr (Or.inr h4)

theorem eventsOk_tighten {T t : Int} {events : List (Int × NavReq)}
    (evok : EventsOk T events)
    (h : ∀ e, events.head? = some e → t ≤ e.1) : EventsOk t events := by
  refine ⟨evok.1, ?_⟩
  intro e he
  cases events with
  | nil => simp at he
  | cons x rest =>
    rcases List.mem_cons.mp he with rfl | hmem
    · exact h e rfl
    · have hx : t ≤ x.1 := h x rfl
      have := (List.pairwise_cons.mp evok.1).1 e hmem
      omega

theorem eventsOk_tail {T t : Int} {x : Int × NavReq}
    {rest : List (Int × NavReq)} (evok : EventsOk T (x :: rest))
    (ht : x.1 = t) : EventsOk t rest := by
  refine ⟨(List.pairwise_cons.mp evok.1).2, ?_⟩
  intro e he
  have := (List.pairwise_cons.mp evok.1).1 e he
  omega

theorem sepCommits_append (l : List (Int × Int)) (x : Int × Int)
    (hsep : SepCommits l)
    (hlast : l = [] ∨ ∃ c, l.getLast? = some c
        ∧ c.1 + MIN_PAGE_CHANGE_INTERVAL ≤ x.1) :
    SepCommits (l ++ [x]) := by
  unfold SepCommits at *
  rw [List.chain'_append]
  refine ⟨hsep, List.chain'_singleton x, ?_⟩
  intro a ha b hb
  simp only [List.head?_cons, Option.mem_def, Option.some.injEq] at hb
  subst hb
  rcases hlast with h | ⟨c, hc, hcl⟩
  · rw [h] at ha
    simp at ha
  · rw [hc] at ha
    simp only [Option.mem_def, Option.some.injEq] at ha
    subst ha
    exact hcl

theorem navInv_commit (t : Int) (r : NavReq) (s0 : NavState)
    (hlock : s0.navLock = false)
    (hsep : SepCommits s0.commits)
    (hfree : s0.commits = [] ∨ ∃ c, s0.commits.getLast? = some c
        ∧ c.1 + MIN_PAGE_CHANGE_INTERVAL ≤ t)
    (hpend : ∀ p, s0.pendingNav = some p → t ≤ p.1) :
    NavInv t (safeGoTo t r s0) := by
  unfold safeGoTo
  rw [if_neg (by simp [hlock])]
  refine
    { sep := ?_
      lock_unlock := ?_
      unlock_none := ?_
      free := ?_
      pend_ge := ?_
      unlock_ge := ?_ }
  · exact sepCommits_append _ _ hsep hfree
  · intro _
    exact ⟨_, List.getLast?_concat _, rfl⟩
  · intro h
    simp at h
  · intro h
    simp at h
  · intro p hp
    exact hpend p hp
  · intro u hu
    injection hu with h'
    have h0 : (0 : Int) ≤ MIN_PAGE_CHANGE_INTERVAL := by decide
    omega

theorem runNav_commits_separated :
    ∀ (fuel : Nat) (events : List (Int × NavReq)) (s : NavState) (T : Int),
    NavInv T s → EventsOk T events →
    SepCommits (runNav fuel events s).commits := by
  intro fuel
  induction fuel with
  | zero =>
    intro events s T inv _
    exact inv.sep
  | succ fuel ih =>
    intro events s T inv evok
    show SepCommits (runNav (Nat.succ fuel) events s).commits
    rw [runNav.eq_def]
    dsimp only
    cases hnt : nextNavTime events s with
    | none => exact inv.sep
    | some t =>
      dsimp only
      obtain ⟨hleU, hleP, hleE⟩ := nextNavTime_le events s t hnt
      have hT : T ≤ t := by
        rcases nextNavTime_cases events s t hnt with h | h | h
        · exact inv.unlock_ge t h
        · rcases Option.map_eq_some'.mp h with ⟨p, hp, hp1⟩
          have := inv.pend_ge p hp
          omega
        · rcases Option.map_eq_some'.mp h with ⟨e, he, he1⟩
          have hmem : e ∈ events := by
            cases events with
            | nil => simp at he
            | cons x rest =>
              simp only [List.head?_cons, Option.some.injEq] at he
              rw [← he]
              exact List.mem_cons_self x rest
          have := evok.2 e hmem
          omega
      by_cases hu : s.unlockAt = some t
      · rw [if_pos hu]
        have hlock : s.navLock = true := by
          by_contra hc
          rw [Bool.not_eq_true] at hc
          rw [inv.unlock_none hc] at hu
          exact Option.noConfusion hu
        obtain ⟨c, hc, hcu⟩ := inv.lock_unlock hlock
        rw [hu] at hcu
        injection hcu with hct
        refine ih events (fireUnlock s) t ?_ (eventsOk_tighten evok hleE)
        exact
          { sep := inv.sep
            lock_unlock := fun h => by simp [fireUnlock] at h
            unlock_none := fun _ => rfl
            free := fun _ => Or.inr ⟨c, hc, by omega⟩
            pend_ge := fun p hp => hleP p hp
            unlock_ge := fun u hu' => by simp [fireUnlock] at hu' }
      · rw [if_neg hu]
        by_cases hp : s.pendingNav.map Prod.fst = some t
        · rw [if_pos hp]
          obtain ⟨p, hpe, hp1⟩ := Option.map_eq_some'.mp hp
          refine ih events (firePendingNav s) t ?_ (eventsOk_tighten evok hleE)
          unfold firePendingNav
          rw [hpe]
          dsimp only
          by_cases hlock : s.navLock = true
          · unfold safeGoTo
            dsimp only
            rw [if_pos hlock]
            exact
              { sep := inv.sep
                lock_unlock := fun h => inv.lock_unlock h
                unlock_none := fun h => by rw [h] at hlock; exact absurd hlock Bool.false_ne_true
                free := fun h => by rw [h] at hlock; exact absurd hlock Bool.false_ne_true
                pend_ge := fun q hq => Option.noConfusion hq
                unlock_ge := fun u hu' => hleU u hu' }
          · rw [Bool.not_eq_true] at hlock
            rw [hp1]
            refine navInv_commit t p.2
              { s with pendingNav := none, lastPageChangeAt := t }
              hlock inv.sep ?_ ?_
            · rcases inv.free hlock with h | ⟨c, hc, hcl⟩
              · exact Or.inl h
              · exact Or.inr ⟨c, hc, by omega⟩
            · intro q hq
              exact Option.noConfusion hq
        · rw [if_neg hp]
          cases events with
          | nil => exact inv.sep
          | cons e rest =>
            have he1 : e.1 = t := by
              rcases nextNavTime_cases (e :: rest) s t hnt with h | h | h
              · exact absurd h hu
              · exact absurd h hp
              · simp only [List.head?_cons, Option.map_some'] at h
                injection h
            refine ih rest (throttledGoTo e.1 e.2 s) t ?_ (eventsOk_tail evok he1)
            rw [he1]
            unfold throttledGoTo
            by_cases hbusy : (s.isPageLoading || s.navLock) = true
            · rw [if_pos hbusy]
              unfold scheduleNav
              exact
                { sep := inv.sep
                  lock_unlock := fun h => inv.lock_unlock h
                  unlock_none := fun h => inv.unlock_none h
                  free := fun h => by
                    rcases inv.free h with h' | ⟨c, hc, hcl⟩
                    · exact Or.inl h'
                    · exact Or.inr ⟨c, hc, by omega⟩
                  pend_ge := fun q hq => by
                    injection hq with h'
                    rw [← h']
                    have := le_max_left (0 : Int) 150
                    omega
                  unlock_ge := fun u hu' => hleU u hu' }
            · rw [if_neg hbusy]
              have hlock : s.navLock = false := by
                have h' : (s.isPageLoading || s.navLock) = false :=
                  Bool.eq_false_iff.mpr hbusy
                exact (Bool.or_eq_false_iff.mp h').2
              by_cases hel :
                  MIN_PAGE_CHANGE_INTERVAL ≤ t - s.lastPageChangeAt
              · rw [if_pos hel]
                refine navInv_commit t e.2 { s with lastPageChangeAt := t }
                  hlock inv.sep ?_ ?_
                · rcases inv.free hlock with h | ⟨c, hc, hcl⟩
                  · exact Or.inl h
                  · exact Or.inr ⟨c, hc, by omega⟩
                · intro q hq
                  exact hleP q hq
              · rw [if_neg hel]
                unfold scheduleNav
                exact
                  { sep := inv.sep
                    lock_unlock := fun h => inv.lock_unlock h
                    unlock_none := fun h => inv.unlock_none h
                    free := fun h => by
                      rcases inv.free h with h' | ⟨c, hc, hcl⟩
                      · exact Or.inl h'
                      · exact Or.inr ⟨c, hc, by omega⟩
                    pend_ge := fun q hq => by
                      injection hq with h'
                      rw [← h']
                      have := le_max_left (0 : Int)
                        (MIN_PAGE_CHANGE_INTERVAL - (t - s.lastPageChangeAt))
                      omega
                    unlock_ge := fun u hu' => hleU u hu' }

/-- C6 counterexample: tap at 1000 (commits page 0→1, lock and loading
until 1900), tap at 1100 targeting page 2. The second request is deferred
to 1250 and, when re-issued there, `safeGoTo` returns immediately because
the lock is still held: the request is dropped for good. The run ends on
page 1 with a single committed change and nothing pending — the claim's
"deferred rather than dropped … most recent request's target is applied,
producing exactly one committed page change per window" predicts a second
commit to page 2. -/
theorem nav_deferred_request_dropped_cex :
    (runNav 20 navEvents navInit).commits = [(1000, 1)]
    ∧ (runNav 20 navEvents navInit).currentPageIndex = 1
    ∧ (runNav 20 navEvents navInit).pendingNav = none
    ∧ (runNav 20 navEvents navInit).navLock = false :=
  ⟨by decide, by decide, by decide, by decide⟩

/-- C6 amended: a request arriving while the lock is held or a page is
loading is deferred by re-arming the single pending timeout 150 ms out —
so several requests in one window coalesce to the most recent one; but a
deferred request whose re-issue fires while the lock is still held is
dropped (no commit, nothing re-scheduled). Committed page changes in any
run from a well-formed state are at least `MIN_PAGE_CHANGE_INTERVAL`
apart: at most one committed change per coalescing window. -/
theorem nav_throttle_coalesce_drop :
    (∀ (now : Int) (r : NavReq) (s : NavState),
      (s.isPageLoading || s.navLock) = true →
      throttledGoTo now r s = { s with pendingNav := some (now + 150, r) })
    ∧ (∀ (s : NavState) (p : Int × NavReq), s.navLock = true →
      s.pendingNav = some p →
      firePendingNav s
        = { s with pendingNav := none, lastPageChangeAt := p.1 })
    ∧ (∀ (fuel : Nat) (events : List (Int × NavReq)) (s : NavState)
        (T : Int), NavInv T s → EventsOk T events →
      SepCommits (runNav fuel events s).commits) := by
  refine ⟨?_, ?_, runNav_commits_separated⟩
  · intro now r s h
    unfold throttledGoTo
    rw [if_pos h]
    unfold scheduleNav
    norm_num
  · intro s p hlock hpend
    unfold firePendingNav
    rw [hpend]
    dsimp only
    unfold safeGoTo
    dsimp only
    rw [if_pos hlock]

/-- Witness for the amended C6: a deferral while locked, a drop at
re-issue, and separation of commits on the concrete two-tap run. -/
theorem nav_throttle_coalesce_drop_witness :
    ((navLocked.isPageLoading || navLocked.navLock) = true
      ∧ throttledGoTo 400 navNext navLocked
        = { navLocked with pendingNav := some (550, navNext) })
    ∧ (navLocked.navLock = true
      ∧ navLocked.pendingNav = some (500, navNext)
      ∧ firePendingNav navLocked
        = { navLocked with pendingNav := none, lastPageChangeAt := 500 })
    ∧ (NavInv 0 navInit ∧ EventsOk 0 navEvents
      ∧ SepCommits (runNav 20 navEvents navInit).commits) := by
  have hinv : NavInv 0 navInit :=
    { sep := List.chain'_nil
      lock_unlock := fun h => by simp [navInit] at h
      unlock_none := fun _ => rfl
      free := fun _ => Or.inl rfl
      pend_ge := fun p hp => by simp [navInit] at hp
      unlock_ge := fun u hu => by simp [navInit] at hu }
  have hevok : EventsOk 0 navEvents := ⟨by decide, by decide⟩
  refine ⟨⟨by decide, ?_⟩, ⟨by decide, by decide, ?_⟩, hinv, hevok, ?_⟩
  · exact nav_throttle_coalesce_drop.1 400 navNext navLocked (by decide)
  · exact nav_throttle_coalesce_drop.2.1 navLocked (500, navNext)
      (by decide) (by decide)
  · exact nav_throttle_coalesce_drop.2.2 20 navEvents navInit 0 hinv hevok

theorem countRunsAux_false_append (t l : List Char)
    (h : ∀ ch ∈ t, jsWhitespace ch = false) :
    countRunsAux false (t ++ l) = countRunsAux false l := by
  induction t with
  | nil => rfl
  | cons c rest ih =>
    have hc : jsWhitespace c = false := h c (by simp)
    simp only [List.cons_append, countRunsAux, hc, Bool.false_eq_true,
      if_false]
    exact ih (fun ch hch => h ch (by simp [hch]))

theorem countRunsAux_true_head (x : Char) (xs : List Char)
    (h : jsWhitespace x = false) :
    countRunsAux true (x :: xs) = countRunsAux false (x :: xs) := by
  simp [countRunsAux, h]

theorem splitWsAux_ne_nil : ∀ (inWs : Bool) (l cur : List Char),
    splitWsAux inWs l cur ≠ [] := by
  intro inWs l
  induction l generalizing inWs with
  | nil => intro cur; simp [splitWsAux]
  | cons c rest ih =>
    intro cur
    by_cases hc : jsWhitespace c = true
    · cases inWs with
      | true => simpa [splitWsAux, hc] using ih true cur
      | false => simp [splitWsAux, hc]
    · rw [Bool.not_eq_true] at hc
      simpa [splitWsAux, hc] using ih false (c :: cur)

theorem splitWsAux_wsFree : ∀ (l : List Char) (inWs : Bool)
    (cur : List Char), (∀ ch ∈ cur, jsWhitespace ch = false) →
    ∀ t ∈ splitWsAux inWs l cur, ∀ ch ∈ t, jsWhitespace ch = false := by
  intro l
  induction l with
  | nil =>
    intro inWs cur hcur t ht ch hch
    simp only [splitWsAux, List.mem_singleton] at ht
    subst ht
    exact hcur ch (List.mem_reverse.mp hch)
  | cons c rest ih =>
    intro inWs cur hcur t ht ch hch
    by_cases hc : jsWhitespace c = true
    · cases inWs with
      | true =>
        simp only [splitWsAux, hc, if_pos rfl] at ht
        exact ih true cur hcur t ht ch hch
      | false =>
        simp only [splitWsAux, hc, if_pos rfl] at ht
        rcases List.mem_cons.mp ht with rfl | ht'
        · exact hcur ch (List.mem_reverse.mp hch)
        · exact ih true [] (by simp) t ht' ch hch
    · rw [Bool.not_eq_true] at hc
      simp only [splitWsAux, hc, Bool.false_eq_true, if_false] at ht
      refine ih false (c :: cur) ?_ t ht ch hch
      intro ch' hch'
      rcases List.mem_cons.mp hch' with rfl | h'
      · exact hc
      · exact hcur ch' h'

theorem splitWsAux_false_first : ∀ (l cur : List Char),
    ∃ tok rest', splitWsAux false l cur = (cur.reverse ++ tok) :: rest' := by
  intro l
  induction l with
  | nil =>
    intro cur
    exact ⟨[], [], by simp [splitWsAux]⟩
  | cons c rest ih =>
    intro cur
    by_cases hc : jsWhitespace c = true
    · exact ⟨[], splitWsAux true rest [], by simp [splitWsAux, hc]⟩
    · rw [Bool.not_eq_true] at hc
      obtain ⟨tok, rest', h⟩ := ih (c :: cur)
      refine ⟨c :: tok, rest', ?_⟩
      simp only [splitWsAux, hc, Bool.false_eq_true, if_false]
      rw [h]
      simp

theorem splitWsAux_interior : ∀ (l : List Char),
    (∀ cur, ∀ t ∈ ((splitWsAux false l cur).dropLast).tail, t ≠ [])
    ∧ (∀ t ∈ (splitWsAux true l []).dropLast, t ≠ []) := by
  intro l
  induction l with
  | nil =>
    constructor
    · intro cur t ht
      simp [splitWsAux] at ht
    · intro t ht
      simp [splitWsAux] at ht
  | cons c rest ih =>
    by_cases hc : jsWhitespace c = true
    · constructor
      · intro cur t ht
        simp only [splitWsAux, hc, if_true, Bool.false_eq_true, if_false] at ht
        have hne := splitWsAux_ne_nil true rest []
        rw [List.dropLast_cons_of_ne_nil hne, List.tail_cons] at ht
        exact ih.2 t ht
      · intro t ht
        simp only [splitWsAux, hc, if_true, Bool.false_eq_true, if_false] at ht
        exact ih.2 t ht
    · rw [Bool.not_eq_true] at hc
      constructor
      · intro cur t ht
        simp only [splitWsAux, hc, Bool.false_eq_true, if_false] at ht
        exact (ih.1 (c :: cur)) t ht
      · intro t ht
        simp only [splitWsAux, hc, Bool.false_eq_true, if_false] at ht
        obtain ⟨tok, rest', hfr⟩ := splitWsAux_false_first rest [c]
        rw [hfr] at ht
        cases hr : rest' with
        | nil =>
          rw [hr] at ht
          simp at ht
        | cons y ys =>
          rw [hr] at ht
          rw [List.dropLast_cons_of_ne_nil (by simp)] at ht
          rcases List.mem_cons.mp ht with rfl | ht'
          · simp
          · have := (ih.1 [c])
            rw [hfr, hr] at this
            rw [List.dropLast_cons_of_ne_nil (by simp), List.tail_cons]
              at this
            exact this t ht'

theorem mem_dropLast_drop : ∀ (j : Nat) (l : List (List Char))
    (t : List Char), t ∈ (l.drop j).dropLast → t ∈ l.dropLast := by
  intro j
  induction j with
  | zero => intro l t h; simpa using h
  | succ j ih =>
    intro l t h
    cases l with
    | nil => simp at h
    | cons x xs =>
      rw [List.drop_succ_cons] at h
      have hxs := ih xs t h
      cases hx : xs with
      | nil => rw [hx] at hxs; simp at hxs
      | cons y ys =>
        rw [hx] at hxs
        rw [List.dropLast_cons_of_ne_nil (by simp)]
        exact List.mem_cons_of_mem x (hx ▸ hxs)

theorem tokenEnds_add : ∀ (toks : List (List Char)) (b d : Nat),
    tokenEnds (b + d) toks = (tokenEnds d toks).map (fun e => b + e) := by
  intro toks
  induction toks with
  | nil => intro b d; rfl
  | cons t rest ih =>
    intro b d
    simp only [tokenEnds, List.map_cons, List.cons.injEq]
    constructor
    · omega
    · rw [show b + d + t.length + 1 = b + (d + t.length + 1) by omega]
      exact ih b (d + t.length + 1)

theorem tokenEnds_ge : ∀ (toks : List (List Char)) (base : Nat),
    ∀ e ∈ tokenEnds base toks, base ≤ e := by
  intro toks
  induction toks with
  | nil => intro base e he; simp [tokenEnds] at he
  | cons t rest ih =>
    intro base e he
    rcases List.mem_cons.mp he with rfl | he'
    · omega
    · have := ih (base + t.length + 1) e he'
      omega

theorem filter_map_add : ∀ (ends : List Nat) (sft c : Nat),
    (ends.map (fun e => sft + e)).filter (fun e => decide (e < c))
      = (ends.filter (fun e => decide (sft + e < c))).map
          (fun e => sft + e) := by
  intro ends sft c
  induction ends with
  | nil => rfl
  | cons e rest ih =>
    simp only [List.map_cons, List.filter_cons]
    by_cases h : sft + e < c
    · rw [if_pos (by simpa using h), if_pos (by simpa using h)]
      simp [ih]
    · rw [if_neg (by simpa using h), if_neg (by simpa using h)]
      exact ih

theorem joinSp_head (toks : List (List Char))
    (hws : ∀ t ∈ toks, ∀ ch ∈ t, jsWhitespace ch = false)
    (hdl : ∀ t ∈ toks.dropLast, t ≠ []) :
    joinSp toks = []
    ∨ ∃ x xs, joinSp toks = x :: xs ∧ jsWhitespace x = false := by
  cases toks with
  | nil => exact Or.inl rfl
  | cons t rest =>
    cases rest with
    | nil =>
      cases ht : t with
      | nil => exact Or.inl (by simp [joinSp, ht])
      | cons x xs =>
        refine Or.inr ⟨x, xs, by simp [joinSp, ht], ?_⟩
        exact hws t (by simp) x (by simp [ht])
    | cons r rs =>
      have htne : t ≠ [] := hdl t (by
        rw [List.dropLast_cons_of_ne_nil (by simp)]
        simp)
      cases ht : t with
      | nil => exact absurd ht htne
      | cons x xs =>
        refine Or.inr ⟨x, xs ++ ' ' :: joinSp (r :: rs), ?_, ?_⟩
        · simp [joinSp, ht]
        · exact hws t (by simp) x (by simp [ht])

theorem countRunsAux_true_take_joinSp (toks : List (List Char))
    (hws : ∀ t ∈ toks, ∀ ch ∈ t, jsWhitespace ch = false)
    (hdl : ∀ t ∈ toks.dropLast, t ≠ []) (c' : Nat) :
    countRunsAux true ((joinSp toks).take c')
      = countRuns ((joinSp toks).take c') := by
  rcases joinSp_head toks hws hdl with h | ⟨x, xs, h, hx⟩
  · rw [h, List.take_nil]
    rfl
  · rw [h]
    cases c' with
    | zero => rfl
    | succ c'' =>
      rw [List.take_succ_cons]
      exact countRunsAux_true_head x (xs.take c'') hx

theorem tokensEndedBefore_cons (t : List Char)
    (rest : List (List Char)) (c : Nat) (h : t.length < c) :
    tokensEndedBefore (t :: rest) c
      = 1 + tokensEndedBefore rest (c - t.length - 1) := by
  unfold tokensEndedBefore
  have h0 : tokenEnds 0 (t :: rest)
      = (0 + t.length) :: tokenEnds (0 + t.length + 1) rest := rfl
  rw [h0]
  rw [List.filter_cons,
    if_pos (by simpa using by omega : decide (0 + t.length < c) = true)]
  have hsh : tokenEnds (0 + t.length + 1) rest
      = (tokenEnds 0 rest).map (fun e => (t.length + 1) + e) := by
    have := tokenEnds_add rest (t.length + 1) 0
    simpa using this
  rw [hsh, filter_map_add]
  have hfc : List.filter (fun e => decide (t.length + 1 + e < c))
        (tokenEnds 0 rest)
      = List.filter (fun e => decide (e < c - t.length - 1))
        (tokenEnds 0 rest) := by
    apply List.filter_congr
    intro a _
    simp only [decide_eq_decide]
    omega
  rw [hfc]
  simp [Nat.add_comm]

theorem countRuns_take_joinSp : ∀ (toks : List (List Char)),
    (∀ t ∈ toks, ∀ ch ∈ t, jsWhitespace ch = false) →
    (∀ t ∈ toks.dropLast, t ≠ []) →
    ∀ c, c ≤ (joinSp toks).length →
    countRuns ((joinSp toks).take c) = tokensEndedBefore toks c := by
  intro toks
  induction toks with
  | nil =>
    intro _ _ c hc
    simp [joinSp] at hc
    subst hc
    rfl
  | cons t rest ih =>
    intro hws hdl c hc
    cases rest with
    | nil =>
      have hlen : c ≤ t.length := by simpa [joinSp] using hc
      have h1 : countRuns ((joinSp [t]).take c) = 0 := by
        show countRunsAux false (t.take c) = 0
        have := countRunsAux_false_append (t.take c) []
          (fun ch hch => hws t (by simp) ch (List.take_subset _ _ hch))
        simpa using this
      rw [h1]
      simp [tokensEndedBefore, tokenEnds, Nat.not_lt.mpr hlen]
    | cons r rs =>
      have hjoin : joinSp (t :: r :: rs) = t ++ ' ' :: joinSp (r :: rs) := rfl
      have hwst : ∀ ch ∈ t, jsWhitespace ch = false := hws t (by simp)
      have hdlr : ∀ u ∈ (r :: rs).dropLast, u ≠ [] := by
        intro u hu
        apply hdl
        rw [List.dropLast_cons_of_ne_nil (by simp)]
        exact List.mem_cons_of_mem t hu
      have hwsr : ∀ u ∈ (r :: rs), ∀ ch ∈ u, jsWhitespace ch = false :=
        fun u hu => hws u (List.mem_cons_of_mem t hu)
      have hlen : (joinSp (t :: r :: rs)).length
          = t.length + 1 + (joinSp (r :: rs)).length := by
        rw [hjoin]
        simp
        omega
      by_cases hcle : c ≤ t.length
      · have htake : (joinSp (t :: r :: rs)).take c = t.take c := by
          rw [hjoin, List.take_append_eq_append_take,
            show c - t.length = 0 by omega]
          simp
        rw [htake]
        have h1 : countRuns (t.take c) = 0 := by
          show countRunsAux false (t.take c) = 0
          have := countRunsAux_false_append (t.take c) []
            (fun ch hch => hwst ch (List.take_subset _ _ hch))
          simpa using this
        rw [h1]
        unfold tokensEndedBefore
        symm
        rw [List.length_eq_zero, List.filter_eq_nil]
        intro e he
        have hge : t.length ≤ e := by
          rcases List.mem_cons.mp he with rfl | he'
          · omega
          · have := tokenEnds_ge (r :: rs) (0 + t.length + 1) e he'
            omega
        simp only [decide_eq_true_eq]
        omega
      · have hc'le : c - t.length - 1 ≤ (joinSp (r :: rs)).length := by
          rw [hlen] at hc
          omega
        have htake : (joinSp (t :: r :: rs)).take c
            = t ++ ' ' :: (joinSp (r :: rs)).take (c - t.length - 1) := by
          rw [hjoin, List.take_append_eq_append_take,
            List.take_all_of_le (by omega),
            show c - t.length = (c - t.length - 1) + 1 by omega,
            List.take_succ_cons]
          simp
        rw [htake]
        show countRunsAux false
            (t ++ ' ' :: (joinSp (r :: rs)).take (c - t.length - 1)) = _
        rw [countRunsAux_false_append t _ hwst]
        have hstep : countRunsAux false
            (' ' :: (joinSp (r :: rs)).take (c - t.length - 1))
            = 1 + countRunsAux true
                ((joinSp (r :: rs)).take (c - t.length - 1)) := by
          simp [countRunsAux, jsWhitespace]
        rw [hstep,
          countRunsAux_true_take_joinSp (r :: rs) hwsr hdlr (c - t.length - 1),
          ih hwsr hdlr (c - t.length - 1) hc'le,
          tokensEndedBefore_cons t (r :: rs) c (by omega)]

/-- C8 counterexample: text `"ab cd ef"`, resume at word 1 (segment
`"cd ef"`), boundary offset 2 — the prefix is exactly `"cd"`. The code
derives word index `1 + 0 = 1` (no whitespace run consumed yet), while
the claim's `k + (tokens fully consumed before the offset)` is
`1 + 1 = 2`, because the token `cd` (occupying offsets 0–2 of the
segment) lies entirely before offset 2. -/
theorem speech_word_index_cex :
    boundaryWordIndex "ab cd ef".toList 1 2 = 1
    ∧ 1 + tokensFullyConsumed ((splitWs "ab cd ef".toList).drop 1) 2 = 2 :=
  ⟨by decide, by decide⟩

/-- C8 amended: the derived word index equals the starting index plus the
number of tokens ending strictly before the offset — equivalently,
tokens whose trailing separator is already consumed. (At offsets that sit
exactly at a token's end the code still reports that token, one less than
the "fully consumed" count.) -/
theorem boundary_word_index_amended (text : List Char) (k c : Nat)
    (hc : c ≤ (joinSp ((splitWs text).drop k)).length) :
    boundaryWordIndex text k c
      = k + tokensEndedBefore ((splitWs text).drop k) c := by
  unfold boundaryWordIndex
  have hws_all : ∀ t ∈ splitWs text, ∀ ch ∈ t, jsWhitespace ch = false :=
    splitWsAux_wsFree text false [] (by simp)
  have hInterior :
      ∀ t ∈ ((splitWs text).dropLast).tail, t ≠ [] :=
    (splitWsAux_interior text).1 []
  cases k with
  | zero =>
    simp only [List.drop_zero] at hc ⊢
    cases htoks : splitWs text with
    | nil => exact absurd htoks (splitWsAux_ne_nil false text [])
    | cons first rest' =>
      rw [htoks] at hc hws_all hInterior
      cases hrest : rest' with
      | nil =>
        subst hrest
        rw [countRuns_take_joinSp [first] hws_all (by simp) c hc]
      | cons r rs =>
        subst hrest
        have hdlr : ∀ u ∈ (r :: rs).dropLast, u ≠ [] := by
          intro u hu
          apply hInterior
          rw [List.dropLast_cons_of_ne_nil (by simp), List.tail_cons]
          exact hu
        have hwsr : ∀ u ∈ (r :: rs), ∀ ch ∈ u, jsWhitespace ch = false :=
          fun u hu => hws_all u (List.mem_cons_of_mem first hu)
        by_cases hfirst : first = []
        · subst hfirst
          have hjoin : joinSp ([] :: r :: rs) = ' ' :: joinSp (r :: rs) := rfl
          rw [hjoin] at hc ⊢
          cases c with
          | zero =>
            rw [List.take_zero]
            have h0 : tokensEndedBefore (([] : List Char) :: r :: rs) 0
                = 0 := by
              unfold tokensEndedBefore
              rw [List.length_eq_zero, List.filter_eq_nil_iff]
              intro e _
              simp
            rw [h0]
            rfl
          | succ c' =>
            rw [List.take_succ_cons]
            have hc'le : c' ≤ (joinSp (r :: rs)).length := by
              simp at hc
              omega
            have hstep : countRuns (' ' :: (joinSp (r :: rs)).take c')
                = 1 + countRunsAux true ((joinSp (r :: rs)).take c') := by
              simp [countRuns, countRunsAux, jsWhitespace]
            rw [hstep,
              countRunsAux_true_take_joinSp (r :: rs) hwsr hdlr c',
              countRuns_take_joinSp (r :: rs) hwsr hdlr c' hc'le,
              tokensEndedBefore_cons [] (r :: rs) (c' + 1) (by simp)]
            simp
        · have hdl : ∀ u ∈ (first :: r :: rs).dropLast, u ≠ [] := by
            intro u hu
            rw [List.dropLast_cons_of_ne_nil (by simp)] at hu
            rcases List.mem_cons.mp hu with rfl | hu'
            · exact hfirst
            · exact hdlr u hu'
          rw [countRuns_take_joinSp (first :: r :: rs) hws_all hdl c hc]
  | succ j =>
    cases htoks : splitWs text with
    | nil => exact absurd htoks (splitWsAux_ne_nil false text [])
    | cons first rest' =>
      rw [htoks] at hc hws_all hInterior
      dsimp only
      rw [List.drop_succ_cons] at hc ⊢
      have hws_seg : ∀ u ∈ rest'.drop j, ∀ ch ∈ u, jsWhitespace ch = false :=
        fun u hu => hws_all u
          (List.mem_cons_of_mem first (List.drop_subset j rest' hu))
      have hdl_seg : ∀ u ∈ (rest'.drop j).dropLast, u ≠ [] := by
        intro u hu
        have hu' : u ∈ rest'.dropLast := mem_dropLast_drop j rest' u hu
        cases hr : rest' with
        | nil =>
          rw [hr] at hu'
          simp at hu'
        | cons y ys =>
          apply hInterior
          rw [hr] at hu'
          rw [hr, List.dropLast_cons_of_ne_nil (by simp), List.tail_cons]
          exact hu'
      rw [countRuns_take_joinSp (rest'.drop j) hws_seg hdl_seg c hc]

/-- Witness for the amended C8: segment `"cd ef"` from word 1, offset 3
(prefix `"cd "`): derived index `2`, one token ended strictly before. -/
theorem boundary_word_index_amended_witness :
    3 ≤ (joinSp ((splitWs "ab cd ef".toList).drop 1)).length
    ∧ boundaryWordIndex "ab cd ef".toList 1 3
      = 1 + tokensEndedBefore ((splitWs "ab cd ef".toList).drop 1) 3 :=
  ⟨by decide, boundary_word_index_amended "ab cd ef".toList 1 3 (by decide)⟩
